import Mathlib

/-!
Verification of the HNB currency-rate fetcher (MatejB/go-workshop-currency).

Shallow embedding of `src/hnb/hnb.go`.

Modelling conventions:
* Lines of the remote payload are Lean `String`s (the output of
  `bufio.Scanner` line splitting); Go's byte-level `len`/slicing is modelled
  at character level, which agrees on the ASCII payloads this format carries.
* Go's `big.Float` (used for the three rates) is an arbitrary-precision
  **binary** floating-point number.  `new(big.Float)` has precision 0, which
  both `Float.Parse` and `Float.SetInt64` bump to 64 bits, and `Float.Quo`
  rounds to the receiver's 64-bit precision, all with round-to-nearest-even.
  We model a `big.Float` the way the package stores it: a sign, a 64-bit
  normalised mantissa and a binary exponent (`BF.fin neg mant exp`, value
  `± mant · 2^exp` with `2^63 ≤ mant < 2^64` for nonzero finite values),
  plus infinities.  All executable arithmetic is over `ℕ`/`ℤ`; the rational
  value of a float is recovered by `BF.val` for the specification theorems.
* A Go run of `fetch`'s scanning loop either returns a value, returns an
  error, or panics (a runtime index-out-of-range or a `big.ErrNaN` panic);
  this is the three-way result type `PRes`.
-/

/-! ## Character/string helpers mirroring the Go standard library -/

/-- `line[a:b]` — Go string slicing (here at character level). -/
def lineSub (s : String) (a b : Nat) : String :=
  ⟨(s.toList.drop a).take (b - a)⟩

/-- `line[a:]` — Go string slicing from an index to the end. -/
def strFrom (s : String) (a : Nat) : String :=
  ⟨s.toList.drop a⟩

/-- `engFloat` from hnb.go: `strings.Map` swapping `,` and `.`. -/
def engFloat (s : String) : String :=
  ⟨s.toList.map (fun c => if c = ',' then '.' else if c = '.' then ',' else c)⟩

/-- `unicode.IsSpace` restricted to the ASCII range (the whitespace that can
occur in this fixed-width bank format). -/
def goIsSpace (c : Char) : Bool :=
  c = ' ' || c = '\t' || c = '\n' || c = '\x0b' || c = '\x0c' || c = '\r'

/-- Worker for `strings.Fields`: split a character list at whitespace,
`acc` being the current (reversed) in-progress field. -/
def fieldsAux : List Char → List Char → List (List Char)
  | [], acc => if acc.isEmpty then [] else [acc.reverse]
  | c :: cs, acc =>
    if goIsSpace c then
      if acc.isEmpty then fieldsAux cs []
      else acc.reverse :: fieldsAux cs []
    else fieldsAux cs (c :: acc)

/-- `strings.Fields`: the whitespace-separated maximal non-space runs. -/
def goFields (s : String) : List String :=
  (fieldsAux s.toList []).map (fun cs => ⟨cs⟩)

/-- Numeric value of a digit character. -/
def digitVal (c : Char) : Nat := c.toNat - 48

/-- Value of a digit string read in base 10. -/
def digitsToNat (cs : List Char) : Nat :=
  cs.foldl (fun a c => 10 * a + digitVal c) 0

/-- Digit-run parser used by `strconv.Atoi`: requires a non-empty all-digit
string whose value fits the given bound (`int` is 64-bit). -/
def atoiDigits (cs : List Char) (bound : Nat) : Option Nat :=
  if cs ≠ [] ∧ cs.all Char.isDigit ∧ digitsToNat cs ≤ bound then
    some (digitsToNat cs)
  else none

/-- `strconv.Atoi` (64-bit `int`). -/
def goAtoi (s : String) : Option Int :=
  match s.toList with
  | '+' :: cs => (atoiDigits cs 9223372036854775807).map (fun n => (n : Int))
  | '-' :: cs => (atoiDigits cs 9223372036854775808).map (fun n => -(n : Int))
  | cs => (atoiDigits cs 9223372036854775807).map (fun n => (n : Int))

/-! ## Dates: `time.Parse("02012006", _)` -/

/-- A calendar date (Go `time.Time` restricted to what this program uses). -/
structure HDate where
  day : Nat
  month : Nat
  year : Nat
deriving DecidableEq, Repr

/-- Gregorian leap-year rule (as in Go's `time` package). -/
def isLeap (y : Nat) : Bool :=
  y % 4 = 0 && (y % 100 ≠ 0 || y % 400 = 0)

/-- Number of days in a month (Go `time` validation). -/
def daysIn (y m : Nat) : Nat :=
  if m = 2 then (if isLeap y then 29 else 28)
  else if m = 4 ∨ m = 6 ∨ m = 9 ∨ m = 11 then 30
  else 31

/-- `time.Parse("02012006", s)`: exactly two day digits, two month digits and
four year digits, with Go's range validation of month and day. -/
def parseDateDDMMYYYY (s : String) : Option HDate :=
  match s.toList with
  | [d1, d2, m1, m2, y1, y2, y3, y4] =>
    if ([d1, d2, m1, m2, y1, y2, y3, y4].all Char.isDigit) then
      let dd := digitsToNat [d1, d2]
      let mm := digitsToNat [m1, m2]
      let yy := digitsToNat [y1, y2, y3, y4]
      if 1 ≤ mm ∧ mm ≤ 12 ∧ 1 ≤ dd ∧ dd ≤ daysIn yy mm then
        some ⟨dd, mm, yy⟩
      else none
    else none
  | _ => none

/-! ## `big.Float` with 64-bit precision -/

/-- A Go `big.Float` as this program produces them: sign, 64-bit mantissa and
binary exponent (value `± mant · 2^exp`), or an infinity.  `mant = 0`
represents (signed) zero. -/
inductive BF where
  | fin (neg : Bool) (mant : Nat) (exp : Int)
  | inf (neg : Bool)
deriving DecidableEq, Repr

/-- Rational value of a finite `big.Float` (infinities are given the junk
value 0; no claim inspects them). -/
def BF.val : BF → ℚ
  | .fin neg m e => (cond neg (-1) 1 : ℚ) * (m : ℚ) * (2 : ℚ) ^ e
  | .inf _ => 0

/-- Fuel-driven bit length: `bitLenAux fuel n` is the number of binary digits
of `n` provided `n ≤ fuel`. -/
def bitLenAux : Nat → Nat → Nat
  | 0, _ => 0
  | fuel + 1, n => if n = 0 then 0 else bitLenAux fuel (n / 2) + 1

/-- Number of binary digits of `n` (`0` for `0`). -/
def bitLen (n : Nat) : Nat := bitLenAux n n

/-- Round the nonnegative rational `nn / dd` to the nearest integer, ties to
even (the `big`-package rounding mode `ToNearestEven`). -/
def rnDiv (nn dd : Nat) : Nat :=
  let q := nn / dd
  let r := nn % dd
  if 2 * r < dd then q
  else if dd < 2 * r then q + 1
  else if q % 2 = 0 then q else q + 1

/-- `⌊log₂ (n/d)⌋` for positive naturals `n`, `d`. -/
def ratLog2p (n d : Nat) : Int :=
  let k := bitLen n
  let l := bitLen d
  if d * 2 ^ (k - 1) ≤ n * 2 ^ (l - 1) then (k : Int) - l
  else (k : Int) - l - 1

/-- Round the positive rational `n / d` to a 64-bit mantissa and exponent,
nearest-even — the rounding `big.Float` applies at precision 64. -/
def rn64p (n d : Nat) : Nat × Int :=
  let e : Int := ratLog2p n d - 63
  let m := if e ≤ 0 then rnDiv (n * 2 ^ (-e).toNat) d else rnDiv n (d * 2 ^ e.toNat)
  if m = 2 ^ 64 then (2 ^ 63, e + 1) else (m, e)

/-- The finite `big.Float` (precision 64) nearest to `± n / d`. -/
def bfOfPos (neg : Bool) (n d : Nat) : BF :=
  if n = 0 then .fin neg 0 0
  else .fin neg (rn64p n d).1 (rn64p n d).2

/-! ## `big.Float.Parse` (base 10) -/

/-- Split a leading run of decimal digits. -/
def scanDigits : List Char → List Char × List Char
  | [] => ([], [])
  | c :: cs =>
    if c.isDigit then
      let p := scanDigits cs
      (c :: p.1, p.2)
    else ([], c :: cs)

/-- An optional leading sign. -/
def parseSign : List Char → Bool × List Char
  | '-' :: cs => (true, cs)
  | '+' :: cs => (false, cs)
  | cs => (false, cs)

/-- Signed all-digit exponent field. -/
def expDigits (cs : List Char) : Option Int :=
  let p := parseSign cs
  if p.2 ≠ [] ∧ p.2.all Char.isDigit then
    some (if p.1 then -(digitsToNat p.2 : Int) else (digitsToNat p.2 : Int))
  else none

/-- Trailing exponent of a `big.Float` literal: empty, `e`/`E` decimal
exponent, or `p`/`P` binary exponent; result `(e10, e2)`. -/
def parseExpPart : List Char → Option (Int × Int)
  | [] => some (0, 0)
  | c :: cs =>
    if c = 'e' ∨ c = 'E' then (expDigits cs).map (fun z => (z, 0))
    else if c = 'p' ∨ c = 'P' then (expDigits cs).map (fun z => (0, z))
    else none

/-- The `big.Float` for the exact decimal `± i · 10^(e10 - s) · 2^(e2)`
(where `s` is the number of fraction digits), rounded to precision 64. -/
def mkBF (neg : Bool) (i : Nat) (s : Nat) (e10 e2 : Int) : BF :=
  let t10 : Int := e10 - s
  let n := i * 10 ^ (max t10 0).toNat * 2 ^ (max e2 0).toNat
  let d := 10 ^ (max (-t10) 0).toNat * 2 ^ (max (-e2) 0).toNat
  bfOfPos neg n d

/-- `new(big.Float).Parse(s, 10)`: sign, decimal mantissa with at most one
point (at least one digit), optional exponent, `inf`/`Inf`; the entire
string must be consumed.  Returns `none` on the error case. -/
def bigFloatParse (s : String) : Option BF :=
  let p := parseSign s.toList
  let neg := p.1
  let cs := p.2
  if cs = ['i', 'n', 'f'] ∨ cs = ['I', 'n', 'f'] then some (.inf neg)
  else
    let ipr := scanDigits cs
    match ipr.2 with
    | '.' :: cs2 =>
      let fpr := scanDigits cs2
      if ipr.1 = [] ∧ fpr.1 = [] then none
      else (parseExpPart fpr.2).map
        (fun p => mkBF neg (digitsToNat (ipr.1 ++ fpr.1)) fpr.1.length p.1 p.2)
    | _ =>
      if ipr.1 = [] then none
      else (parseExpPart ipr.2).map
        (fun p => mkBF neg (digitsToNat ipr.1) 0 p.1 p.2)

/-! ## `normaliseRate` -/

/-- Result of `normaliseRate`: a float, a parse error, or the `big.ErrNaN`
panic that `Quo` raises on 0/0. -/
inductive NRes where
  | ok (x : BF)
  | err
  | nanPanic
deriving DecidableEq, Repr

/-- `Float.Quo(x, units)` at receiver precision 64 (with `SetInt64 units` as
the divisor): correctly rounded division; `x/0` is an infinity for `x ≠ 0`
and panics with `ErrNaN` for `0/0`. -/
def bfQuoInt (x : BF) (u : Int) : NRes :=
  match x with
  | .inf neg => .ok (.inf (neg != decide (u < 0)))
  | .fin neg m e =>
    if u = 0 then
      if m = 0 then .nanPanic else .ok (.inf neg)
    else
      if 0 ≤ e then .ok (bfOfPos (neg != decide (u < 0)) (m * 2 ^ e.toNat) u.natAbs)
      else .ok (bfOfPos (neg != decide (u < 0)) m (u.natAbs * 2 ^ (-e).toNat))

/-- `normaliseRate` from hnb.go: parse the (already `engFloat`-swapped) text
as a `big.Float`, and divide by the unit count unless it is 1. -/
def normaliseRate (value : String) (units : Int) : NRes :=
  match bigFloatParse value with
  | none => .err
  | some x => if units = 1 then .ok x else bfQuoInt x units

/-! ## The snapshot type and the scanning loop of `fetch` -/

/-- `Rate` from hnb.go (three `*big.Float` fields). -/
structure Rate where
  buy : BF
  middle : BF
  sell : BF
deriving DecidableEq, Repr

/-- `Exchange` from hnb.go.  `date = none` is the `time.Time` zero value the
struct starts with; the rates map is an association list in which the most
recent insertion shadows older ones (Go map assignment). -/
structure Exchange where
  date : Option HDate
  rates : List (String × Rate)
deriving DecidableEq, Repr

/-- Go `exchange.Rates[currency] = rate` (overwrite on repeated key). -/
def mapInsert (k : String) (v : Rate) (m : List (String × Rate)) :
    List (String × Rate) :=
  (k, v) :: m.filter (fun p => p.1 != k)

/-- The errors `fetch` can return, tagged with the offending line. -/
inductive ErrInfo where
  | transport
  | dateErr (line : String)
  | formatErr (line : String)
  | unitsErr (line : String)
  | rateErr (line : String)
deriving DecidableEq, Repr

/-- Outcome of running (part of) `fetch`: a value, a returned error, or a
runtime panic (index out of range / `big.ErrNaN`). -/
inductive PRes (α : Type) where
  | ok (a : α)
  | err (e : ErrInfo)
  | panicked
deriving DecidableEq, Repr

/-- The effect one line of the body has in the scanner loop of `fetch`.
The Go loop body reads only `line` (never the exchange built so far), so its
effect factors through this classification. -/
inductive LineAct where
  | skip
  | setDate (d : HDate)
  | addRate (c : String) (r : Rate)
  | fail (e : ErrInfo)
  | crash
deriving DecidableEq, Repr

/-- Whether a run of the scanning loop returned a value (rather than an
error or a panic). -/
def PRes.isOk {α : Type} : PRes α → Bool
  | .ok _ => true
  | _ => false

/-- One iteration of the scanner loop in `fetch`, on one line.
Mirrors hnb.go lines 129–172: skip empty lines; a 21-character line is the
header whose characters `[11:19]` are the application date; otherwise the
line must split into exactly 4 fields, the first field is sliced as
`parts[0][3:6]` / `parts[0][6:]` — which panics when it is shorter than 6
characters — and the three rates are normalised by the unit count. -/
def lineAct (line : String) : LineAct :=
  if line.length = 0 then .skip
  else if line.length = 21 then
    match parseDateDDMMYYYY (lineSub line 11 19) with
    | some d => .setDate d
    | none => .fail (.dateErr line)
  else
    match goFields line with
    | [p0, p1, p2, p3] =>
      if p0.length < 6 then .crash
      else
        let currency := lineSub p0 3 6
        match goAtoi (strFrom p0 6) with
        | none => .fail (.unitsErr line)
        | some units =>
          match normaliseRate (engFloat p1) units with
          | .nanPanic => .crash
          | .err => .fail (.rateErr line)
          | .ok b =>
            match normaliseRate (engFloat p2) units with
            | .nanPanic => .crash
            | .err => .fail (.rateErr line)
            | .ok mid =>
              match normaliseRate (engFloat p3) units with
              | .nanPanic => .crash
              | .err => .fail (.rateErr line)
              | .ok sl => .addRate currency ⟨b, mid, sl⟩
    | _ => .fail (.formatErr line)

/-- Apply one line's effect to the exchange under construction:
`exchange.Date = ...`, `exchange.Rates[currency] = rate`, `return ..., err`,
or a runtime panic. -/
def processLine (ex : Exchange) (line : String) : PRes Exchange :=
  match lineAct line with
  | .skip => .ok ex
  | .setDate d => .ok { ex with date := some d }
  | .addRate c r => .ok { ex with rates := mapInsert c r ex.rates }
  | .fail e => .err e
  | .crash => .panicked

/-- The whole scanner loop of `fetch` over the body's lines, from a given
partially built exchange. -/
def runLines (ex : Exchange) : List String → PRes Exchange
  | [] => .ok ex
  | l :: ls =>
    match processLine ex l with
    | .ok ex' => runLines ex' ls
    | .err e => .err e
    | .panicked => .panicked

/-- Parsing a fetched body (its scanner lines) into an exchange, starting —
as `fetch` does — from the zero date and the freshly made empty rates map. -/
def fetchLines (lines : List String) : PRes Exchange :=
  runLines ⟨none, []⟩ lines

/-- What `client.Get` hands to the scanning loop: either a transport error
(`err != nil`) or a response carrying a status code and body lines. -/
inductive HTTPOutcome where
  | transportError
  | response (status : Nat) (bodyLines : List String)

/-- `fetch` from hnb.go: return on transport error, otherwise scan the body.
The response's status code is never inspected. -/
def fetch (r : HTTPOutcome) : PRes Exchange :=
  match r with
  | .transportError => .err .transport
  | .response _status body => fetchLines body

/-! ## Result extractors used by the claim statements -/

/-- The application date of a successful fetch result. -/
def resDate : PRes Exchange → Option HDate
  | .ok ex => ex.date
  | _ => none

/-- The rate entry a successful fetch result holds for a currency. -/
def resLookup (r : PRes Exchange) (c : String) : Option Rate :=
  match r with
  | .ok ex => ex.rates.lookup c
  | _ => none

/-- Rational value of a mantissa/exponent pair. -/
def pairVal (p : Nat × Int) : ℚ := (p.1 : ℚ) * (2 : ℚ) ^ p.2

/-- The application date determined by the 21-character header lines of a
payload: the last such line's characters `[11:19]`, or the initial date when
the payload has no header line. -/
def lastHeaderDate (lines : List String) (d0 : Option HDate) : Option HDate :=
  match (lines.filter (fun l => l.length == 21)).getLast? with
  | some h => parseDateDDMMYYYY (lineSub h 11 19)
  | none => d0

namespace Updater

/-!
Modelled from the spec: the bodies of `HNB.updater` and `HNB.Close`, and the
channel-based serving of snapshots in `HNB.LatestExchange`, are left as
`// implement ...` stubs in src/hnb/hnb.go (the skeleton's `LatestExchange`
meanwhile delegates straight to `fetch`, which its own comment marks as to
be replaced).  The cache updater below follows spec §3 ("Cache Updater
internal state"), §4.3 (state machine `Running → Closed`, the background
refresh loop, `latestSnapshot`/`close`) and §7 (error kinds): one background
task owns the single current snapshot; each refresh attempt either succeeds
(replacing the snapshot atomically) or fails (snapshot retained); `close` is
a terminal one-way transition after which the loop processes nothing and
every read fails with the closed-cache error; a read before any successful
fetch fails with the distinct "not yet available" condition.  Reading is a
pure function of the held state — it performs no fetch of its own.
-/

/-- A step of the background task's life: a refresh attempt (from the hourly
tick, a trigger, or startup) that succeeded with a freshly fetched snapshot,
a refresh attempt that failed (transport or format error), or the shutdown
signal. -/
inductive UEvent where
  | fetchOk (ex : Exchange)
  | fetchFail
  | closeSig
deriving DecidableEq

/-- Modelled from the spec: the cache updater's internal state — whether the
terminal `Closed` state has been entered, and the single current snapshot
(`none` until a first successful fetch). -/
structure UState where
  closed : Bool
  current : Option Exchange
deriving DecidableEq

/-- Modelled from the spec: how one event changes the updater's state.  After
`close` the loop has exited, so nothing further is processed; a successful
refresh atomically replaces the snapshot; a failed refresh retains it. -/
def step (s : UState) (e : UEvent) : UState :=
  if s.closed then s
  else
    match e with
    | .fetchOk ex => { s with current := some ex }
    | .fetchFail => s
    | .closeSig => { s with closed := true }

/-- The updater state after a trace of events, starting from construction
(running, no snapshot yet). -/
def run (es : List UEvent) : UState :=
  es.foldl step ⟨false, none⟩

/-- The two errors a reader can see: the closed-cache error, and the
"not yet available" condition before any snapshot was obtained (spec §7). -/
inductive ReadErr where
  | closedCache
  | notYetAvailable
deriving DecidableEq

/-- Modelled from the spec: `latestSnapshot()` — a pure read of the held
state (it performs no network I/O): the closed-cache error after shutdown,
otherwise the currently held snapshot. -/
def latestSnapshot (s : UState) : Except ReadErr Exchange :=
  if s.closed then .error .closedCache
  else
    match s.current with
    | some ex => .ok ex
    | none => .error .notYetAvailable

/-- The most recently successfully fetched snapshot of a trace (the last
`fetchOk` wins). -/
def lastSuccess : List UEvent → Option Exchange
  | [] => none
  | .fetchOk ex :: es => some ((lastSuccess es).getD ex)
  | .fetchFail :: es => lastSuccess es
  | .closeSig :: es => lastSuccess es

end Updater


/-! ## Correctness of the 64-bit rounding -/

theorem bitLenAux_zero (fuel : Nat) : bitLenAux fuel 0 = 0 := by
  cases fuel <;> simp [bitLenAux]

theorem bitLenAux_spec : ∀ fuel n, n ≤ fuel → 1 ≤ n →
    2 ^ (bitLenAux fuel n - 1) ≤ n ∧ n < 2 ^ bitLenAux fuel n := by
  intro fuel
  induction fuel with
  | zero => intro n h1 h2; omega
  | succ f ih =>
    intro n hle hpos
    have hne : n ≠ 0 := by omega
    rw [bitLenAux, if_neg hne]
    by_cases h2 : n / 2 = 0
    · have hn1 : n = 1 := by omega
      subst hn1
      simp [h2, bitLenAux_zero]
    · have hrec := ih (n / 2) (by omega) (by omega)
      obtain ⟨r1, r2⟩ := hrec
      set b := bitLenAux f (n / 2) with hb
      have hb1 : 1 ≤ b := by
        by_contra hc
        have : b = 0 := by omega
        rw [this] at r2
        simp at r2
        omega
      have e1 : 2 ^ b = 2 * 2 ^ (b - 1) := by
        conv_lhs => rw [show b = (b - 1) + 1 by omega]
        rw [pow_succ]
        ring
      have e2 : 2 ^ (b + 1) = 2 * 2 ^ b := by rw [pow_succ]; ring
      constructor
      · simpa using by omega
      · omega

theorem bitLen_bounds (n : Nat) (h : 1 ≤ n) :
    2 ^ (bitLen n - 1) ≤ n ∧ n < 2 ^ bitLen n :=
  bitLenAux_spec n n le_rfl h

theorem bitLen_pos (n : Nat) (h : 1 ≤ n) : 1 ≤ bitLen n := by
  rcases bitLen_bounds n h with ⟨h1, h2⟩
  by_contra hc
  have : bitLen n = 0 := by omega
  rw [this] at h2
  simp at h2
  omega

theorem rnDiv_err (N D : Nat) (hD : 1 ≤ D) :
    |((rnDiv N D : Nat) : ℚ) - (N : ℚ) / D| ≤ 1 / 2 := by
  have hD0 : (0 : ℚ) < D := by exact_mod_cast hD
  have hsplit : (N : ℚ) / D = (N / D : Nat) + ((N % D : Nat) : ℚ) / D := by
    have h := Nat.div_add_mod N D
    have hq : (D : ℚ) * ((N / D : Nat) : ℚ) + ((N % D : Nat) : ℚ) = (N : ℚ) := by
      exact_mod_cast h
    field_simp
    linarith
  have hrD : ((N % D : Nat) : ℚ) / D < 1 := by
    rw [div_lt_one hD0]
    exact_mod_cast Nat.mod_lt N (by omega)
  have hr0 : (0 : ℚ) ≤ ((N % D : Nat) : ℚ) / D := by positivity
  rw [rnDiv]
  split_ifs with h1 h2 h3
  · -- round down: 2r < D
    have : ((N % D : Nat) : ℚ) / D < 1 / 2 := by
      rw [div_lt_div_iff₀ hD0 (by norm_num)]
      exact_mod_cast by omega
    rw [hsplit, abs_le]
    constructor <;> [linarith; linarith]
  · -- round up: D < 2r
    have : 1 / 2 < ((N % D : Nat) : ℚ) / D := by
      rw [div_lt_div_iff₀ (by norm_num) hD0]
      exact_mod_cast by omega
    rw [hsplit]
    push_cast
    rw [abs_le]
    constructor <;> [linarith; linarith]
  · -- tie, even: 2r = D, result q
    have : ((N % D : Nat) : ℚ) / D = 1 / 2 := by
      rw [div_eq_div_iff (by positivity) (by norm_num)]
      exact_mod_cast by omega
    rw [hsplit, abs_le]
    constructor <;> [linarith; linarith]
  · -- tie, odd: result q+1
    have : ((N % D : Nat) : ℚ) / D = 1 / 2 := by
      rw [div_eq_div_iff (by positivity) (by norm_num)]
      exact_mod_cast by omega
    rw [hsplit]
    push_cast
    rw [abs_le]
    constructor <;> [linarith; linarith]

theorem zpow_sub_le_div_iff₀ (a b n d : Nat) (hd : 1 ≤ d) :
    (2 : ℚ) ^ ((a : Int) - (b : Int)) ≤ (n : ℚ) / d ↔ d * 2 ^ a ≤ n * 2 ^ b := by
  have hd0 : (0 : ℚ) < d := by exact_mod_cast hd
  rw [zpow_sub₀ (two_ne_zero), zpow_natCast, zpow_natCast,
    div_le_div_iff₀ (by positivity) hd0]
  rw [show (2 : ℚ) ^ a * d = ((d * 2 ^ a : Nat) : ℚ) by push_cast; ring,
    show (n : ℚ) * 2 ^ b = ((n * 2 ^ b : Nat) : ℚ) by push_cast; ring]
  exact_mod_cast Iff.rfl

theorem div_lt_zpow_sub_iff (a b n d : Nat) (hd : 1 ≤ d) :
    (n : ℚ) / d < (2 : ℚ) ^ ((a : Int) - (b : Int)) ↔ n * 2 ^ b < d * 2 ^ a := by
  have hd0 : (0 : ℚ) < d := by exact_mod_cast hd
  rw [zpow_sub₀ (two_ne_zero), zpow_natCast, zpow_natCast,
    div_lt_div_iff₀ hd0 (by positivity)]
  rw [show (2 : ℚ) ^ a * d = ((d * 2 ^ a : Nat) : ℚ) by push_cast; ring,
    show (n : ℚ) * 2 ^ b = ((n * 2 ^ b : Nat) : ℚ) by push_cast; ring]
  exact_mod_cast Iff.rfl

theorem ratLog2p_bounds (n d : Nat) (hn : 1 ≤ n) (hd : 1 ≤ d) :
    (2 : ℚ) ^ ratLog2p n d ≤ (n : ℚ) / d ∧ (n : ℚ) / d < (2 : ℚ) ^ (ratLog2p n d + 1) := by
  obtain ⟨hn1, hn2⟩ := bitLen_bounds n hn
  obtain ⟨hd1, hd2⟩ := bitLen_bounds d hd
  have hkp := bitLen_pos n hn
  have hlp := bitLen_pos d hd
  rw [ratLog2p]
  set k := bitLen n with hk
  set l := bitLen d with hl
  split_ifs with hc
  · constructor
    · rw [show (k : Int) - l = ((k - 1 : Nat) : Int) - ((l - 1 : Nat) : Int) by omega,
        zpow_sub_le_div_iff₀ _ _ _ _ hd]
      exact hc
    · rw [show (k : Int) - l + 1 = ((k : Nat) : Int) - ((l - 1 : Nat) : Int) by omega,
        div_lt_zpow_sub_iff _ _ _ _ hd]
      calc n * 2 ^ (l - 1) < 2 ^ k * 2 ^ (l - 1) := by gcongr
        _ = 2 ^ (l - 1) * 2 ^ k := by ring
        _ ≤ d * 2 ^ k := by gcongr
  · constructor
    · rw [show (k : Int) - l - 1 = ((k - 1 : Nat) : Int) - ((l : Nat) : Int) by omega,
        zpow_sub_le_div_iff₀ _ _ _ _ hd]
      calc d * 2 ^ (k - 1) ≤ 2 ^ l * 2 ^ (k - 1) := by gcongr
        _ = 2 ^ (k - 1) * 2 ^ l := by ring
        _ ≤ n * 2 ^ l := by gcongr
    · rw [show (k : Int) - l - 1 + 1 = ((k - 1 : Nat) : Int) - ((l - 1 : Nat) : Int) by omega,
        div_lt_zpow_sub_iff _ _ _ _ hd]
      omega

theorem rn64p_spec (n d : Nat) (hn : 1 ≤ n) (hd : 1 ≤ d) :
    2 ^ 63 ≤ (rn64p n d).1 ∧ (rn64p n d).1 < 2 ^ 64 ∧
      |pairVal (rn64p n d) - (n : ℚ) / d| ≤ ((n : ℚ) / d) / 2 ^ 64 := by
  have hd0 : (0 : ℚ) < d := by exact_mod_cast hd
  have hn0 : (0 : ℚ) < n := by exact_mod_cast hn
  set q : ℚ := (n : ℚ) / d with hqdef
  have hq0 : 0 < q := by positivity
  obtain ⟨hL1, hL2⟩ := ratLog2p_bounds n d hn hd
  set L : Int := ratLog2p n d with hLdef
  set e : Int := L - 63 with hedef
  set x : ℚ := q * (2 : ℚ) ^ (-e) with hxdef
  have h2e : (0 : ℚ) < (2 : ℚ) ^ e := by positivity
  have h2ne : (0 : ℚ) < (2 : ℚ) ^ (-e) := by positivity
  have hqx : q = x * (2 : ℚ) ^ e := by
    rw [hxdef, mul_assoc, ← zpow_add₀ (two_ne_zero), neg_add_cancel, zpow_zero, mul_one]
  have hx1 : (2 : ℚ) ^ (63 : Int) ≤ x := by
    calc (2 : ℚ) ^ (63 : Int) = (2 : ℚ) ^ L * (2 : ℚ) ^ (-e) := by
          rw [← zpow_add₀ (two_ne_zero)]; congr 1; omega
      _ ≤ q * (2 : ℚ) ^ (-e) := by gcongr
  have hx2 : x < (2 : ℚ) ^ (64 : Int) := by
    calc x = q * (2 : ℚ) ^ (-e) := hxdef
      _ < (2 : ℚ) ^ (L + 1) * (2 : ℚ) ^ (-e) := by gcongr
      _ = (2 : ℚ) ^ (64 : Int) := by
          rw [← zpow_add₀ (two_ne_zero)]; congr 1; omega
  set m₀ : Nat := if e ≤ 0 then rnDiv (n * 2 ^ (-e).toNat) d else rnDiv n (d * 2 ^ e.toNat)
    with hm₀
  have key : |(m₀ : ℚ) - x| ≤ 1 / 2 := by
    rw [hm₀]
    split_ifs with he
    · have hval : ((n * 2 ^ (-e).toNat : Nat) : ℚ) / d = x := by
        push_cast
        rw [hxdef, hqdef]
        rw [show ((2 : ℚ) ^ ((-e).toNat : ℕ) = (2 : ℚ) ^ (-e)) from by
          rw [← zpow_natCast, Int.toNat_of_nonneg (by omega : (0 : Int) ≤ -e)]]
        ring
      have := rnDiv_err (n * 2 ^ (-e).toNat) d hd
      rwa [hval] at this
    · have hdpos : 1 ≤ d * 2 ^ e.toNat :=
        Nat.mul_pos (by omega) (pow_pos (by norm_num) _)
      have hval : (n : ℚ) / ((d * 2 ^ e.toNat : Nat) : ℚ) = x := by
        push_cast
        rw [hxdef, hqdef]
        rw [show ((2 : ℚ) ^ (e.toNat : ℕ) = (2 : ℚ) ^ e) from by
          rw [← zpow_natCast, Int.toNat_of_nonneg (by omega : (0 : Int) ≤ e)]]
        rw [zpow_neg]
        field_simp
      have := rnDiv_err n (d * 2 ^ e.toNat) hdpos
      rwa [hval] at this
  have habs := abs_le.mp key
  have hx1' : (9223372036854775808 : ℚ) ≤ x := by
    rw [show ((9223372036854775808 : ℚ) = (2 : ℚ) ^ (63 : Int)) from by norm_num]
    exact hx1
  have hx2' : x < (18446744073709551616 : ℚ) := by
    rw [show ((18446744073709551616 : ℚ) = (2 : ℚ) ^ (64 : Int)) from by norm_num]
    exact hx2
  have hm1 : 2 ^ 63 ≤ m₀ := by
    have hgt : (9223372036854775807 : ℚ) < (m₀ : ℚ) := by linarith [habs.1]
    have : (9223372036854775807 : ℕ) < m₀ := by exact_mod_cast hgt
    omega
  have hm2 : m₀ ≤ 2 ^ 64 := by
    have hlt : (m₀ : ℚ) < (18446744073709551617 : ℚ) := by linarith [habs.2]
    have : m₀ < (18446744073709551617 : ℕ) := by exact_mod_cast hlt
    omega
  have hres : rn64p n d = if m₀ = 2 ^ 64 then ((2 ^ 63 : ℕ), e + 1) else (m₀, e) := by
    rw [rn64p]
  have hvaleq : pairVal (rn64p n d) = (m₀ : ℚ) * (2 : ℚ) ^ e := by
    rw [hres]
    split_ifs with hc
    · rw [pairVal, hc]
      have he1 : (2 : ℚ) ^ (e + 1) = (2 : ℚ) ^ e * 2 := by
        rw [zpow_add₀ (two_ne_zero), zpow_one]
      push_cast
      rw [he1]
      ring
    · rw [pairVal]
  have hmant : (rn64p n d).1 = if m₀ = 2 ^ 64 then (2 ^ 63 : ℕ) else m₀ := by
    rw [hres]; split_ifs <;> rfl
  refine ⟨?_, ?_, ?_⟩
  · rw [hmant]; split_ifs <;> omega
  · rw [hmant]; split_ifs with hc
    · norm_num
    · omega
  · rw [hvaleq, hqx]
    have step1 : (m₀ : ℚ) * (2:ℚ) ^ e - x * (2:ℚ) ^ e = ((m₀ : ℚ) - x) * (2:ℚ) ^ e := by ring
    rw [step1, abs_mul, abs_of_pos h2e]
    have step2 : |(m₀ : ℚ) - x| * (2:ℚ) ^ e ≤ (1 / 2) * (2:ℚ) ^ e := by gcongr
    have step3 : (1 / 2) * (2:ℚ) ^ e ≤ (x * (2:ℚ) ^ e) / 2 ^ 64 := by
      rw [le_div_iff₀ (by positivity)]
      have hmul := mul_le_mul_of_nonneg_right hx1' h2e.le
      norm_num
      norm_num at hmul
      linarith
    linarith

/-! ## Correctness of the parse/normalise value pipeline -/

theorem bf_val_fin (m : Nat) (e : Int) :
    BF.val (.fin false m e) = (m : ℚ) * (2 : ℚ) ^ e := by
  rw [BF.val]
  norm_num

theorem bfOfPos_eq (neg : Bool) (n d : Nat) (hn : n ≠ 0) :
    bfOfPos neg n d = .fin neg (rn64p n d).1 (rn64p n d).2 := by
  simp only [bfOfPos, hn, if_false]

theorem bfOfPos_spec (n d : Nat) (hn : 1 ≤ n) (hd : 1 ≤ d) :
    ∃ m e, bfOfPos false n d = .fin false m e ∧ 2 ^ 63 ≤ m ∧ m < 2 ^ 64 ∧
      |BF.val (.fin false m e) - (n : ℚ) / d| ≤ ((n : ℚ) / d) / 2 ^ 64 := by
  obtain ⟨h1, h2, h3⟩ := rn64p_spec n d hn hd
  refine ⟨(rn64p n d).1, (rn64p n d).2, bfOfPos_eq false n d (by omega), h1, h2, ?_⟩
  rw [bf_val_fin]
  exact h3

theorem bfQuoInt_spec (m : Nat) (e : Int) (u : Int) (hm : 1 ≤ m) (hu : 0 < u) :
    ∃ m' e', bfQuoInt (.fin false m e) u = .ok (.fin false m' e') ∧
      2 ^ 63 ≤ m' ∧ m' < 2 ^ 64 ∧
      |BF.val (.fin false m' e') - BF.val (.fin false m e) / u| ≤
        (BF.val (.fin false m e) / u) / 2 ^ 64 := by
  have hu0 : u ≠ 0 := by omega
  have huQ : (0 : ℚ) < (u : ℚ) := by exact_mod_cast hu
  have hsign : (false != decide (u < 0)) = false := by
    rw [decide_eq_false (by omega : ¬ u < 0)]
    rfl
  have hua : ((u.natAbs : ℕ) : ℚ) = (u : ℚ) := by
    rw [Int.cast_natAbs]
    push_cast
    exact abs_of_pos huQ
  have huaN : 1 ≤ u.natAbs := by omega
  rw [bfQuoInt, if_neg hu0, hsign]
  split_ifs with he
  · -- 0 ≤ e
    have hn' : 1 ≤ m * 2 ^ e.toNat := Nat.mul_pos (by omega) (pow_pos (by norm_num) _)
    obtain ⟨m', e', hres, hr1, hr2, herr⟩ := bfOfPos_spec (m * 2 ^ e.toNat) u.natAbs hn' huaN
    refine ⟨m', e', by rw [hres], hr1, hr2, ?_⟩
    have hvv : ((m * 2 ^ e.toNat : Nat) : ℚ) / ((u.natAbs : ℕ) : ℚ) =
        BF.val (.fin false m e) / u := by
      rw [hua, bf_val_fin]
      push_cast
      rw [show ((2 : ℚ) ^ (e.toNat : ℕ) = (2 : ℚ) ^ e) from by
        rw [← zpow_natCast, Int.toNat_of_nonneg he]]
    rwa [hvv] at herr
  · -- e < 0
    have hd' : 1 ≤ u.natAbs * 2 ^ (-e).toNat :=
      Nat.mul_pos (by omega) (pow_pos (by norm_num) _)
    obtain ⟨m', e', hres, hr1, hr2, herr⟩ := bfOfPos_spec m (u.natAbs * 2 ^ (-e).toNat) hm hd'
    refine ⟨m', e', by rw [hres], hr1, hr2, ?_⟩
    have hvv : (m : ℚ) / ((u.natAbs * 2 ^ (-e).toNat : Nat) : ℚ) =
        BF.val (.fin false m e) / u := by
      rw [bf_val_fin]
      push_cast
      rw [hua, show ((2 : ℚ) ^ ((-e).toNat : ℕ) = (2 : ℚ) ^ (-e)) from by
        rw [← zpow_natCast, Int.toNat_of_nonneg (by omega : (0 : Int) ≤ -e)]]
      rw [zpow_neg]
      have h2e : ((2 : ℚ) ^ e) ≠ 0 := by positivity
      field_simp
    rwa [hvv] at herr

theorem normaliseRate_spec (s : String) (u : Int) (n d : Nat)
    (hp : bigFloatParse s = some (bfOfPos false n d))
    (hu : 0 < u) (hn : 1 ≤ n) (hd : 1 ≤ d) :
    ∃ m' e', normaliseRate s u = .ok (.fin false m' e') ∧
      |BF.val (.fin false m' e') - ((n : ℚ) / d) / u| ≤ (((n : ℚ) / d) / u) / 10 ^ 8 := by
  have hd0 : (0 : ℚ) < d := by exact_mod_cast hd
  have hn0 : (0 : ℚ) < n := by exact_mod_cast hn
  have huQ : (0 : ℚ) < (u : ℚ) := by exact_mod_cast hu
  set q : ℚ := (n : ℚ) / d with hq
  have hq0 : 0 < q := by positivity
  obtain ⟨m, e, hbf, hm1, hm2, herr1⟩ := bfOfPos_spec n d hn hd
  simp only [normaliseRate, hp, hbf]
  by_cases h1 : u = 1
  · subst h1
    rw [if_pos rfl]
    refine ⟨m, e, rfl, ?_⟩
    push_cast
    simp only [div_one]
    calc |BF.val (.fin false m e) - q| ≤ q / 2 ^ 64 := herr1
      _ ≤ q / 10 ^ 8 := by gcongr; norm_num
  · rw [if_neg h1]
    obtain ⟨m', e', hquo, hr1, hr2, herr2⟩ := bfQuoInt_spec m e u (by omega) hu
    refine ⟨m', e', hquo, ?_⟩
    set v₁ : ℚ := BF.val (.fin false m e) with hv₁
    set v₂ : ℚ := BF.val (.fin false m' e') with hv₂
    have hv₁pos : 0 < v₁ := by
      have := abs_le.mp herr1
      nlinarith [this.1]
    have hB : (0 : ℚ) < (u : ℚ)⁻¹ := by positivity
    have tri := abs_sub_le v₂ (v₁ / u) (q / u)
    have t2 : |v₁ / u - q / u| = |v₁ - q| * (u : ℚ)⁻¹ := by
      rw [div_sub_div_same, abs_div, abs_of_pos huQ, div_eq_mul_inv]
    have habs1 := abs_le.mp herr1
    have hv₁le : v₁ ≤ q + q / 2 ^ 64 := by linarith [habs1.2]
    calc |v₂ - q / u| ≤ |v₂ - v₁ / u| + |v₁ / u - q / u| := tri
      _ ≤ (v₁ / u) / 2 ^ 64 + |v₁ - q| * (u : ℚ)⁻¹ := by rw [t2]; gcongr
      _ ≤ ((q + q / 2 ^ 64) / u) / 2 ^ 64 + (q / 2 ^ 64) * (u : ℚ)⁻¹ := by gcongr
      _ = (q * (u : ℚ)⁻¹) * (1 / 2 ^ 64 + 1 / 2 ^ 128 + 1 / 2 ^ 64) := by
        rw [div_eq_mul_inv, div_eq_mul_inv]
        ring
      _ ≤ (q * (u : ℚ)⁻¹) * (1 / 10 ^ 8) := by
        gcongr
        norm_num
      _ = (q / u) / 10 ^ 8 := by
        rw [div_eq_mul_inv, div_eq_mul_inv]
        ring

/-! ## Claim theorems -/

/-- C4 (counterexample): the end-to-end payload of the spec parses, and its
USD entry holds the 64-bit binary float nearest to 6.839371 — whose value is
not the exact decimal 6.839371, so the snapshot does not contain the literal
decimal rates the claim states. -/
theorem c4_counterexample :
    resLookup (fetchLines ["059240320172503201713",
        "840USD001       6,839371       6,859951       6,880531",
        "978EUR001       7,388573       7,410805       7,433037"]) "USD" =
      some ⟨.fin false 15770515807768871218 (-61), .fin false 15817970056898489040 (-61),
            .fin false 15865424306028106861 (-61)⟩ ∧
    BF.val (.fin false 15770515807768871218 (-61)) ≠ (6839371 : ℚ) / 10 ^ 6 := by
  constructor
  · decide
  · rw [bf_val_fin]
    norm_num

/-- C4 (amended): parsing the spec's end-to-end payload succeeds with
application date 2017-03-25, and the USD and EUR entries hold the correctly
rounded 64-bit binary values of the quoted decimals — each within a relative
error of 2⁻⁶³ of 6.839371/6.859951/6.880531 resp. 7.388573/7.410805/7.433037
(hence printing identically at the 6-decimal output precision), though not
exactly equal to those decimals. -/
theorem c4_end_to_end :
    resDate (fetchLines ["059240320172503201713",
        "840USD001       6,839371       6,859951       6,880531",
        "978EUR001       7,388573       7,410805       7,433037"]) = some ⟨25, 3, 2017⟩ ∧
    resLookup (fetchLines ["059240320172503201713",
        "840USD001       6,839371       6,859951       6,880531",
        "978EUR001       7,388573       7,410805       7,433037"]) "USD" =
      some ⟨.fin false 15770515807768871218 (-61), .fin false 15817970056898489040 (-61),
            .fin false 15865424306028106861 (-61)⟩ ∧
    resLookup (fetchLines ["059240320172503201713",
        "840USD001       6,839371       6,859951       6,880531",
        "978EUR001       7,388573       7,410805       7,433037"]) "EUR" =
      some ⟨.fin false 17036889400115050364 (-61), .fin false 17088152901895889208 (-61),
            .fin false 17139416403676728052 (-61)⟩ ∧
    |BF.val (.fin false 15770515807768871218 (-61)) - 6839371 / 10 ^ 6| ≤
      ((6839371 : ℚ) / 10 ^ 6) / 2 ^ 63 ∧
    |BF.val (.fin false 15817970056898489040 (-61)) - 6859951 / 10 ^ 6| ≤
      ((6859951 : ℚ) / 10 ^ 6) / 2 ^ 63 ∧
    |BF.val (.fin false 15865424306028106861 (-61)) - 6880531 / 10 ^ 6| ≤
      ((6880531 : ℚ) / 10 ^ 6) / 2 ^ 63 ∧
    |BF.val (.fin false 17036889400115050364 (-61)) - 7388573 / 10 ^ 6| ≤
      ((7388573 : ℚ) / 10 ^ 6) / 2 ^ 63 ∧
    |BF.val (.fin false 17088152901895889208 (-61)) - 7410805 / 10 ^ 6| ≤
      ((7410805 : ℚ) / 10 ^ 6) / 2 ^ 63 ∧
    |BF.val (.fin false 17139416403676728052 (-61)) - 7433037 / 10 ^ 6| ≤
      ((7433037 : ℚ) / 10 ^ 6) / 2 ^ 63 := by
  refine ⟨by decide, by decide, by decide, ?_, ?_, ?_, ?_, ?_, ?_⟩ <;>
    (rw [bf_val_fin, abs_le]; constructor <;> norm_num)

/-- C5: unit normalisation divides the parsed value by the unit count with
correctly rounded 64-bit arithmetic, so for every quoted rate text (parsing
to the exact positive decimal n/d) and every unit count u > 0 the stored
per-1-unit rate equals (n/d)/u to within a relative error of 10⁻⁸ (at least
8 significant decimal digits); in particular the spec's unit-100 JPY line
stores values agreeing with 0.06161252 / 0.06179791 / 0.0619833 to at least
8 significant digits. -/
theorem c5_unit_normalisation :
    (∀ (s : String) (u : Int) (n d : Nat),
        bigFloatParse s = some (bfOfPos false n d) → 0 < u → 1 ≤ n → 1 ≤ d →
        ∃ m' e', normaliseRate s u = .ok (.fin false m' e') ∧
          |BF.val (.fin false m' e') - ((n : ℚ) / d) / u| ≤ (((n : ℚ) / d) / u) / 10 ^ 8) ∧
    resLookup (fetchLines ["392JPY100       6,161252       6,179791       6,198330"]) "JPY" =
      some ⟨.fin false 18184806210820979570 (-68), .fin false 18239523680962179790 (-68),
            .fin false 18294241151103380012 (-68)⟩ ∧
    |BF.val (.fin false 18184806210820979570 (-68)) - 6161252 / 10 ^ 8| ≤
      ((6161252 : ℚ) / 10 ^ 8) / 10 ^ 8 ∧
    |BF.val (.fin false 18239523680962179790 (-68)) - 6179791 / 10 ^ 8| ≤
      ((6179791 : ℚ) / 10 ^ 8) / 10 ^ 8 ∧
    |BF.val (.fin false 18294241151103380012 (-68)) - 619833 / 10 ^ 7| ≤
      ((619833 : ℚ) / 10 ^ 7) / 10 ^ 8 := by
  refine ⟨normaliseRate_spec, by decide, ?_, ?_, ?_⟩ <;>
    (rw [bf_val_fin, abs_le]; constructor <;> norm_num)

/-- C5 (witness): the general normalisation theorem applied to the JPY
middle-rate text with unit count 100. -/
theorem c5_witness :
    bigFloatParse (engFloat "6,161252") = some (bfOfPos false 6161252 1000000) ∧
    (0 : Int) < 100 ∧ (1 : ℕ) ≤ 6161252 ∧ (1 : ℕ) ≤ 1000000 ∧
    ∃ m' e', normaliseRate (engFloat "6,161252") 100 = .ok (.fin false m' e') ∧
      |BF.val (.fin false m' e') - (((6161252 : ℕ) : ℚ) / ((1000000 : ℕ) : ℚ)) / ((100 : Int) : ℚ)| ≤
        ((((6161252 : ℕ) : ℚ) / ((1000000 : ℕ) : ℚ)) / ((100 : Int) : ℚ)) / 10 ^ 8 :=
  ⟨by decide, by decide, by decide, by decide,
    c5_unit_normalisation.1 (engFloat "6,161252") 100 6161252 1000000
      (by decide) (by decide) (by decide) (by decide)⟩

/-- C6 (counterexample): the USD line's stored middle rate is the 64-bit
binary float nearest to 6.859951, whose value is not the exact decimal
6.859951 — the stored rates are binary floating-point values, not exact
decimal numbers. -/
theorem c6_counterexample :
    resLookup (fetchLines ["840USD001       6,839371       6,859951       6,880531"]) "USD" =
      some ⟨.fin false 15770515807768871218 (-61), .fin false 15817970056898489040 (-61),
            .fin false 15865424306028106861 (-61)⟩ ∧
    BF.val (.fin false 15817970056898489040 (-61)) ≠ (6859951 : ℚ) / 10 ^ 6 := by
  constructor
  · decide
  · rw [bf_val_fin]
    norm_num

/-- C6 (amended): every stored rate value is a 64-bit-precision binary
floating-point number (a normalised dyadic rational m·2^e with
2⁶³ ≤ m < 2⁶⁴), correctly rounded from the parsed decimal text to within a
relative error of 2⁻⁶⁴ — ample for 8 digits before and 6 after the decimal
point at output precision — but not the exact decimal value itself. -/
theorem c6_binary_rounding :
    ∀ n d : Nat, 1 ≤ n → 1 ≤ d →
      ∃ m e, bfOfPos false n d = .fin false m e ∧ 2 ^ 63 ≤ m ∧ m < 2 ^ 64 ∧
        BF.val (.fin false m e) = (m : ℚ) * (2 : ℚ) ^ e ∧
        |BF.val (.fin false m e) - (n : ℚ) / d| ≤ ((n : ℚ) / d) / 2 ^ 64 := by
  intro n d hn hd
  obtain ⟨m, e, h1, h2, h3, h4⟩ := bfOfPos_spec n d hn hd
  exact ⟨m, e, h1, h2, h3, bf_val_fin m e, h4⟩

/-- C6 (witness): the binary-rounding theorem applied to the decimal
6.839371 (the USD buy rate of the sample payload). -/
theorem c6_witness :
    (1 : ℕ) ≤ 6839371 ∧ (1 : ℕ) ≤ 1000000 ∧
    ∃ m e, bfOfPos false 6839371 1000000 = .fin false m e ∧ 2 ^ 63 ≤ m ∧ m < 2 ^ 64 ∧
      BF.val (.fin false m e) = (m : ℚ) * (2 : ℚ) ^ e ∧
      |BF.val (.fin false m e) - ((6839371 : ℕ) : ℚ) / ((1000000 : ℕ) : ℚ)| ≤
        (((6839371 : ℕ) : ℚ) / ((1000000 : ℕ) : ℚ)) / 2 ^ 64 :=
  ⟨by decide, by decide,
    c6_binary_rounding 6839371 1000000 (by decide) (by decide)⟩

/-! ## Per-line classification lemmas -/

theorem lineAct_blank (l : String) (h : l.length = 0) : lineAct l = .skip := by
  rw [lineAct, if_pos h]

theorem lineAct_format (l : String) (h0 : l.length ≠ 0) (h21 : l.length ≠ 21)
    (h4 : (goFields l).length ≠ 4) : lineAct l = .fail (.formatErr l) := by
  rw [lineAct, if_neg h0, if_neg h21]
  rcases hg : goFields l with _ | ⟨a, _ | ⟨b, _ | ⟨c, _ | ⟨d, _ | ⟨e, rest⟩⟩⟩⟩⟩ <;>
    simp only
  exact absurd (by rw [hg]; rfl) h4

theorem lineAct_data (l : String) (h0 : l.length ≠ 0) (h21 : l.length ≠ 21) :
    lineAct l = .crash ∨ (∃ e, lineAct l = .fail e) ∨ (∃ c r, lineAct l = .addRate c r) := by
  rw [lineAct, if_neg h0, if_neg h21]
  split
  · split_ifs
    · exact Or.inl rfl
    · split
      · exact Or.inr (Or.inl ⟨_, rfl⟩)
      · split
        · exact Or.inl rfl
        · exact Or.inr (Or.inl ⟨_, rfl⟩)
        · split
          · exact Or.inl rfl
          · exact Or.inr (Or.inl ⟨_, rfl⟩)
          · split
            · exact Or.inl rfl
            · exact Or.inr (Or.inl ⟨_, rfl⟩)
            · exact Or.inr (Or.inr ⟨_, _, rfl⟩)
  · exact Or.inr (Or.inl ⟨_, rfl⟩)

/-! ## Loop lemmas -/

theorem runLines_not_ok_of_bad : ∀ (lines : List String) (ex0 : Exchange),
    (∃ l ∈ lines, l.length ≠ 0 ∧ l.length ≠ 21 ∧ (goFields l).length ≠ 4) →
    (runLines ex0 lines).isOk = false := by
  intro lines
  induction lines with
  | nil => intro ex0 h; simp at h
  | cons l ls ih =>
    intro ex0 ⟨w, hw, hbad⟩
    rw [runLines]
    cases hpl : processLine ex0 l with
    | ok ex1 =>
      rcases List.mem_cons.mp hw with rfl | hmem
      · rw [processLine, lineAct_format w hbad.1 hbad.2.1 hbad.2.2] at hpl
        cases hpl
      · exact ih ex1 ⟨w, hmem, hbad⟩
    | err e => rfl
    | panicked => rfl

/-- Runs from two states with the same rates map stay in lockstep on the
rates (line effects never read the exchange built so far). -/
theorem runLines_rates_congr : ∀ (ls : List String) (A ex₁ : Exchange),
    runLines A ls = .ok ex₁ → ∀ B : Exchange, B.rates = A.rates →
    ∃ ex₂, runLines B ls = .ok ex₂ ∧ ex₂.rates = ex₁.rates := by
  intro ls
  induction ls with
  | nil =>
    intro A ex₁ h B hBA
    rw [runLines] at h
    cases h
    exact ⟨B, rfl, hBA⟩
  | cons x xs ih =>
    intro A ex₁ h B hBA
    rw [runLines] at h
    cases hla : lineAct x with
    | skip =>
      rw [processLine, hla] at h
      obtain ⟨ex₂, h2, h3⟩ := ih A ex₁ h B hBA
      exact ⟨ex₂, by rw [runLines, processLine, hla]; exact h2, h3⟩
    | setDate d =>
      rw [processLine, hla] at h
      obtain ⟨ex₂, h2, h3⟩ := ih { A with date := some d } ex₁ h { B with date := some d } hBA
      exact ⟨ex₂, by rw [runLines, processLine, hla]; exact h2, h3⟩
    | addRate c r =>
      rw [processLine, hla] at h
      obtain ⟨ex₂, h2, h3⟩ := ih { A with rates := mapInsert c r A.rates } ex₁ h
        { B with rates := mapInsert c r B.rates } (by simp [hBA])
      exact ⟨ex₂, by rw [runLines, processLine, hla]; exact h2, h3⟩
    | fail e => rw [processLine, hla] at h; cases h
    | crash => rw [processLine, hla] at h; cases h

theorem lastHeaderDate_cons_notHeader (l : String) (ls : List String) (d0 : Option HDate)
    (h : (l.length == 21) = false) :
    lastHeaderDate (l :: ls) d0 = lastHeaderDate ls d0 := by
  unfold lastHeaderDate
  rw [List.filter_cons]
  simp [h]

theorem lastHeaderDate_cons_header (l : String) (ls : List String) (d0 : Option HDate)
    (h : (l.length == 21) = true) (d : HDate)
    (hp : parseDateDDMMYYYY (lineSub l 11 19) = some d) :
    lastHeaderDate (l :: ls) d0 = lastHeaderDate ls (some d) := by
  unfold lastHeaderDate
  rw [List.filter_cons]
  simp only [h, if_true]
  cases hfe : ls.filter (fun l => l.length == 21) with
  | nil => simp [hp]
  | cons a t =>
    rw [List.getLast?_cons_cons]
    cases hgl : (a :: t).getLast? with
    | none => simp at hgl
    | some g => rfl

theorem runLines_header_facts : ∀ (lines : List String) (ex0 ex' : Exchange),
    runLines ex0 lines = .ok ex' →
    ex'.date = lastHeaderDate lines ex0.date ∧
    ∃ ex'', runLines ex0 (lines.filter (fun l => !(l.length == 21))) = .ok ex'' ∧
      ex''.rates = ex'.rates := by
  intro lines
  induction lines with
  | nil =>
    intro ex0 ex' h
    rw [runLines] at h
    cases h
    exact ⟨rfl, ⟨ex0, rfl, rfl⟩⟩
  | cons l ls ih =>
    intro ex0 ex' h
    rw [runLines] at h
    by_cases h0 : l.length = 0
    · -- blank line
      rw [processLine, lineAct_blank l h0] at h
      obtain ⟨hdate, ex'', h2, h3⟩ := ih ex0 ex' h
      have hfh : (l.length == 21) = false := by rw [beq_eq_false_iff_ne, h0]; omega
      refine ⟨?_, ⟨ex'', ?_, h3⟩⟩
      · rw [hdate, lastHeaderDate_cons_notHeader l ls _ hfh]
      · rw [List.filter_cons]
        simp only [hfh, Bool.not_false, if_true]
        rw [runLines, processLine, lineAct_blank l h0]
        exact h2
    · by_cases h21 : l.length = 21
      · -- header line
        have hfh : (l.length == 21) = true := by rw [beq_iff_eq]; exact h21
        cases hp : parseDateDDMMYYYY (lineSub l 11 19) with
        | none =>
          rw [processLine, show lineAct l = .fail (.dateErr l) from by
            rw [lineAct, if_neg h0, if_pos h21, hp]] at h
          cases h
        | some d =>
          rw [processLine, show lineAct l = .setDate d from by
            rw [lineAct, if_neg h0, if_pos h21, hp]] at h
          obtain ⟨hdate, ex'', h2, h3⟩ := ih { ex0 with date := some d } ex' h
          refine ⟨?_, ?_⟩
          · rw [hdate, lastHeaderDate_cons_header l ls _ hfh d hp]
          · obtain ⟨ex₂, h4, h5⟩ := runLines_rates_congr _ _ _ h2 ex0 rfl
            refine ⟨ex₂, ?_, h5.trans h3⟩
            rw [List.filter_cons]
            simp only [hfh, Bool.not_true, if_false]
            exact h4
      · -- data line
        have hfh : (l.length == 21) = false := by rw [beq_eq_false_iff_ne]; exact h21
        rcases lineAct_data l h0 h21 with hla | ⟨e, hla⟩ | ⟨c, r, hla⟩
        · rw [processLine, hla] at h; cases h
        · rw [processLine, hla] at h; cases h
        · rw [processLine, hla] at h
          obtain ⟨hdate, ex'', h2, h3⟩ := ih { ex0 with rates := mapInsert c r ex0.rates } ex' h
          refine ⟨?_, ⟨ex'', ?_, h3⟩⟩
          · rw [hdate, lastHeaderDate_cons_notHeader l ls _ hfh]
          · rw [List.filter_cons]
            simp only [hfh, Bool.not_false, if_true]
            rw [runLines, processLine, hla]
            exact h2

/-! ## Claim theorems C7–C10 -/

/-- C7 (counterexample): the payload whose first line is the 4-field
"ab cd ef gh" (first field shorter than 6) and whose second line "zz zz" is
non-blank, not 21 characters and not 4 fields, makes the scan panic at the
first line — the fetch attempt does not return a format error even though
the payload contains a malformed-split line. -/
theorem c7_counterexample :
    fetchLines ["ab cd ef gh", "zz zz"] = .panicked ∧
    ("zz zz".length ≠ 0 ∧ "zz zz".length ≠ 21 ∧ (goFields "zz zz").length ≠ 4) :=
  ⟨by decide, by decide, by decide, by decide⟩

/-- C7 (amended): a payload containing a non-blank line that is neither the
21-character header nor a 4-field line never parses to a snapshot: the
whole fetch attempt returns an error or panics, never a (partially filled)
exchange. -/
theorem c7_malformed_line_aborts :
    ∀ lines : List String,
      (∃ l ∈ lines, l.length ≠ 0 ∧ l.length ≠ 21 ∧ (goFields l).length ≠ 4) →
      (fetchLines lines).isOk = false :=
  fun lines h => runLines_not_ok_of_bad lines ⟨none, []⟩ h

/-- C7 (witness): the single-line payload "zz" is malformed and its parse
returns no snapshot. -/
theorem c7_witness :
    (∃ l ∈ ["zz"], l.length ≠ 0 ∧ l.length ≠ 21 ∧ (goFields l).length ≠ 4) ∧
    (fetchLines ["zz"]).isOk = false :=
  ⟨⟨"zz", by simp, by decide, by decide, by decide⟩,
    c7_malformed_line_aborts ["zz"] ⟨"zz", by simp, by decide, by decide, by decide⟩⟩

/-- C8: a 4-field line whose first field is shorter than 6 characters makes
the scanning loop panic (`parts[0][3:6]` slices out of range) instead of
returning a descriptive error — evaluating the code at the failing input. -/
theorem c8_short_first_field_panics :
    goFields "ab cd ef gh" = ["ab", "cd", "ef", "gh"] ∧
    fetchLines ["ab cd ef gh"] = .panicked :=
  ⟨by decide, by decide⟩

/-- C9: `fetch` never inspects the response's status code — the scan is run
on the body whatever the status is; in particular a 500 response with an
empty body yields a successful, empty snapshot rather than an error. -/
theorem c9_status_never_checked :
    (∀ (s₁ s₂ : Nat) (body : List String),
      fetch (.response s₁ body) = fetch (.response s₂ body)) ∧
    fetch (.response 500 []) = .ok ⟨none, []⟩ :=
  ⟨fun _ _ _ => rfl, by decide⟩

/-- C10: in every successful parse, each 21-character line — wherever it
occurs and however many there are — acts as a header: the snapshot's date is
the parsed `[11:19]` date of the last such line (or the starting date when
there is none), and removing all 21-character lines leaves the rates map of
the result unchanged (headers never contribute a rate entry). -/
theorem c10_header_semantics :
    ∀ (ex0 : Exchange) (lines : List String) (ex' : Exchange),
      runLines ex0 lines = .ok ex' →
      ex'.date = lastHeaderDate lines ex0.date ∧
      ∃ ex'', runLines ex0 (lines.filter (fun l => !(l.length == 21))) = .ok ex'' ∧
        ex''.rates = ex'.rates :=
  fun ex0 lines ex' h => runLines_header_facts lines ex0 ex' h

/-- C10 (witness): a payload with two header lines and a blank line parses
to the second header's date with an empty rates map. -/
theorem c10_witness :
    runLines ⟨none, []⟩ ["059240320172503201713", "", "000000000000101201800"] =
      .ok ⟨some ⟨1, 1, 2018⟩, []⟩ ∧
    (⟨some ⟨1, 1, 2018⟩, []⟩ : Exchange).date =
      lastHeaderDate ["059240320172503201713", "", "000000000000101201800"]
        (⟨none, []⟩ : Exchange).date ∧
    ∃ ex'', runLines ⟨none, []⟩
        ((["059240320172503201713", "", "000000000000101201800"]).filter
          (fun l => !(l.length == 21))) = .ok ex'' ∧
      ex''.rates = (⟨some ⟨1, 1, 2018⟩, []⟩ : Exchange).rates :=
  ⟨by decide, (c10_header_semantics ⟨none, []⟩ _ _ (by decide)).1,
    (c10_header_semantics ⟨none, []⟩ _ _ (by decide)).2⟩

/-! ## Claim theorems C1–C3 (spec-modelled cache updater) -/

theorem Updater.run_stuck : ∀ (es : List Updater.UEvent) (s : Updater.UState),
    s.closed = true → es.foldl Updater.step s = s := by
  intro es
  induction es with
  | nil => intro s _; rfl
  | cons e es ih =>
    intro s h
    rw [List.foldl_cons, show Updater.step s e = s from by
      rw [Updater.step.eq_def, if_pos h], ih s h]

theorem Updater.latest_main : ∀ (es : List Updater.UEvent) (s : Updater.UState),
    (es.foldl Updater.step s).closed = false →
    s.closed = false ∧
      Updater.latestSnapshot (es.foldl Updater.step s) =
        (match Updater.lastSuccess es with
         | some ex => .ok ex
         | none => Updater.latestSnapshot s) := by
  intro es
  induction es with
  | nil => intro s h; exact ⟨h, rfl⟩
  | cons e es ih =>
    intro s h
    rw [List.foldl_cons] at h ⊢
    have hs : s.closed = false := by
      by_contra hc
      have hcl : s.closed = true := by
        cases hb : s.closed
        · exact absurd hb hc
        · rfl
      rw [show Updater.step s e = s from by rw [Updater.step.eq_def, if_pos hcl],
        Updater.run_stuck es s hcl] at h
      rw [h] at hcl
      cases hcl
    have hsif : ¬ (s.closed = true) := by rw [hs]; exact Bool.false_ne_true
    cases e with
    | fetchOk ex =>
      rw [show Updater.step s (.fetchOk ex) = { s with current := some ex } from by
        rw [Updater.step.eq_def, if_neg hsif]] at h ⊢
      obtain ⟨hs1, heq⟩ := ih { s with current := some ex } h
      refine ⟨hs, ?_⟩
      rw [heq, show Updater.lastSuccess (Updater.UEvent.fetchOk ex :: es)
          = some ((Updater.lastSuccess es).getD ex) from rfl]
      cases hls : Updater.lastSuccess es with
      | some y => rfl
      | none =>
        rw [Updater.latestSnapshot.eq_def, if_neg (by rw [hs]; exact Bool.false_ne_true)]
        rfl
    | fetchFail =>
      rw [show Updater.step s .fetchFail = s from by
        rw [Updater.step.eq_def, if_neg hsif]] at h ⊢
      obtain ⟨_, heq⟩ := ih s h
      exact ⟨hs, heq⟩
    | closeSig =>
      rw [show Updater.step s .closeSig = { s with closed := true } from by
        rw [Updater.step.eq_def, if_neg hsif]] at h
      rw [Updater.run_stuck es _ rfl] at h
      cases h

/-- C1 (spec-modelled): in the Running state, `latestSnapshot` returns the
most recently successfully fetched snapshot held by the background task —
reading is a pure function of the updater's state and performs no fetch of
its own. -/
theorem c1_latest_is_last_success :
    ∀ (es : List Updater.UEvent) (ex : Exchange),
      (Updater.run es).closed = false → Updater.lastSuccess es = some ex →
      Updater.latestSnapshot (Updater.run es) = .ok ex := by
  intro es ex h hls
  rw [Updater.run] at h ⊢
  rw [(Updater.latest_main es ⟨false, none⟩ h).2, hls]

/-- C1 (witness): after a successful fetch followed by a failed refresh, the
reader still receives the fetched snapshot. -/
theorem c1_witness :
    (Updater.run [.fetchOk ⟨none, []⟩, .fetchFail]).closed = false ∧
    Updater.lastSuccess [.fetchOk ⟨none, []⟩, .fetchFail] = some ⟨none, []⟩ ∧
    Updater.latestSnapshot (Updater.run [.fetchOk ⟨none, []⟩, .fetchFail]) = .ok ⟨none, []⟩ :=
  ⟨rfl, rfl, c1_latest_is_last_success [.fetchOk ⟨none, []⟩, .fetchFail] ⟨none, []⟩ rfl rfl⟩

/-- C2 (spec-modelled): closing is terminal — after a `close` anywhere in the
trace, every `latestSnapshot` call fails with the closed-cache error; no
post-close read returns a snapshot as success. -/
theorem c2_reads_after_close_fail :
    ∀ es es' : List Updater.UEvent,
      Updater.latestSnapshot (Updater.run (es ++ Updater.UEvent.closeSig :: es')) =
        .error .closedCache := by
  intro es es'
  rw [Updater.run, List.foldl_append, List.foldl_cons]
  have hclosed : (Updater.step (List.foldl Updater.step ⟨false, none⟩ es)
      Updater.UEvent.closeSig).closed = true := by
    rw [Updater.step.eq_def]
    split_ifs with hc
    · exact hc
    · rfl
  rw [Updater.run_stuck es' _ hclosed, Updater.latestSnapshot.eq_def, if_pos hclosed]

/-- C3 (spec-modelled): a failed refresh attempt leaves the updater's state
unchanged, so every subsequent read returns exactly what it returned before
the failed attempt — in particular, a running updater holding a last-good
snapshot still serves that same snapshot. -/
theorem c3_failed_refresh_keeps_snapshot :
    ∀ es : List Updater.UEvent,
      (Updater.latestSnapshot (Updater.run (es ++ [Updater.UEvent.fetchFail])) =
        Updater.latestSnapshot (Updater.run es)) ∧
      (∀ ex : Exchange, (Updater.run es).closed = false →
        (Updater.run es).current = some ex →
        Updater.latestSnapshot (Updater.run (es ++ [Updater.UEvent.fetchFail])) = .ok ex) := by
  intro es
  have hrun : Updater.run (es ++ [Updater.UEvent.fetchFail]) = Updater.run es := by
    rw [Updater.run, Updater.run, List.foldl_append, List.foldl_cons, List.foldl_nil]
    rw [Updater.step.eq_def]
    split_ifs <;> rfl
  refine ⟨by rw [hrun], ?_⟩
  intro ex h1 h2
  rw [hrun, Updater.latestSnapshot.eq_def,
    if_neg (by rw [h1]; exact Bool.false_ne_true), h2]

/-- C3 (witness): a concrete running trace holding a snapshot, unchanged by a
failed refresh. -/
theorem c3_witness :
    (Updater.latestSnapshot (Updater.run ([.fetchOk ⟨none, []⟩] ++ [Updater.UEvent.fetchFail])) =
      Updater.latestSnapshot (Updater.run [.fetchOk ⟨none, []⟩])) ∧
    (Updater.run [.fetchOk ⟨none, []⟩]).closed = false ∧
    (Updater.run [.fetchOk ⟨none, []⟩]).current = some ⟨none, []⟩ ∧
    Updater.latestSnapshot (Updater.run ([.fetchOk ⟨none, []⟩] ++ [Updater.UEvent.fetchFail])) =
      .ok ⟨none, []⟩ :=
  ⟨(c3_failed_refresh_keeps_snapshot [.fetchOk ⟨none, []⟩]).1, rfl, rfl,
    (c3_failed_refresh_keeps_snapshot [.fetchOk ⟨none, []⟩]).2 ⟨none, []⟩ rfl rfl⟩
